import Mathlib

/-!
Verification of the vgen LFSR Verilog generators (`vgen_rand.py` and
`vgen_lfsr.py`) against their natural-language specification.

Shallow embedding conventions:
* Python sets of bit indices become `Finset ℕ`; Python lists become `List`.
* Python's `int` command-line argument `out_width` becomes `ℤ` (it can be
  negative); `range rand_wd` over a negative bound is the empty range, which
  `Int.toNat` models.
* The fallible `parse_polynomial` returns `Except ParseErr`.  A failed
  `assert` on the base prefix maps to `MalformedPolynomial`, the failed
  `assert eval(...) != 0` maps to `ZeroPolynomial`, and a `SyntaxError`
  raised by `eval` on a prefixed string whose digits are not a numeric
  literal maps to `EvalError`.  Numeric literals are modelled as a base
  prefix followed by a plain digit string.
* `list.getD i d` models Python list indexing; the source only ever indexes
  in bounds (guaranteed by the validated-polynomial hypotheses carried by
  the theorems below), so the default is never reached there.
* Emitted Verilog text is modelled as `String`, built with the same literal
  fragments as the Python `%`-format strings.  Python's `list(set)`
  enumeration order is unspecified by the language; following the spec's
  DESIGN NOTES (which make ascending order the canonical choice exactly
  because the source's order is unspecified), the model enumerates a
  `Finset` in ascending order via `Finset.sort`.
-/

namespace Vgen

/-- Embedding of `vgen_rand.xor_two_sets`: merge two sets and remove the
common elements, i.e. `set.union(set1, set2) - set.intersection(set1, set2)`. -/
def xor_two_sets (set1 set2 : Finset ℕ) : Finset ℕ :=
  (set1 ∪ set2) \ (set1 ∩ set2)

/-- Embedding of `cur_sets = [{ii} for ii in range(lfsr_len)]` in
`vgen_rand.gen_random`. -/
def init_sets (lfsr_len : ℕ) : List (Finset ℕ) :=
  (List.range lfsr_len).map fun ii => {ii}

/-- Embedding of the inner loop of `vgen_rand.gen_random` that accumulates
`xor_out = xor_two_sets(xor_out, cur_sets[one_indices[oo]])` starting from
the empty set. -/
def xor_out_of (one_indices : List ℕ) (cur_sets : List (Finset ℕ)) : Finset ℕ :=
  one_indices.foldl (fun acc oo => xor_two_sets acc (cur_sets.getD oo ∅)) ∅

/-- Embedding of the in-place shift loop of `vgen_rand.gen_random`:
`for ii in range(lfsr_len-1, 0, -1): cur_sets[ii] = cur_sets[ii-1]`.
`shiftDown k` performs the assignments at indices `k, k-1, ..., 1`. -/
def shiftDown : ℕ → List (Finset ℕ) → List (Finset ℕ)
  | 0, cur_sets => cur_sets
  | ii + 1, cur_sets => shiftDown ii (cur_sets.set (ii + 1) (cur_sets.getD ii ∅))

/-- One cycle's register update in `vgen_rand.gen_random`: the shift loop
followed by `cur_sets[0] = xor_out`. -/
def step_sets (lfsr_len : ℕ) (xor_out : Finset ℕ) (cur_sets : List (Finset ℕ)) :
    List (Finset ℕ) :=
  (shiftDown (lfsr_len - 1) cur_sets).set 0 xor_out

/-- Embedding of the main loop `for ww in range(rand_wd)` of
`vgen_rand.gen_random`, appending each cycle's `xor_out` to `rand_out`. -/
def gen_random_loop (lfsr_len : ℕ) (one_indices : List ℕ) :
    ℕ → List (Finset ℕ) → List (Finset ℕ)
  | 0, _ => []
  | ww + 1, cur_sets =>
    let xor_out := xor_out_of one_indices cur_sets
    xor_out :: gen_random_loop lfsr_len one_indices ww (step_sets lfsr_len xor_out cur_sets)

/-- Embedding of `vgen_rand.gen_random`.  `rand_wd` is the Python `int`
command-line value, hence `ℤ`; `range rand_wd` is empty for `rand_wd ≤ 0`,
which `Int.toNat` models. -/
def gen_random (lfsr_len : ℕ) (one_indices : List ℕ) (rand_wd : ℤ) : List (Finset ℕ) :=
  gen_random_loop lfsr_len one_indices rand_wd.toNat (init_sets lfsr_len)

/-- A validated polynomial as produced by `parse_polynomial`: positive
register length, a non-empty list of distinct tap indices, all within
bounds. -/
def ValidPoly (lfsr_len : ℕ) (one_indices : List ℕ) : Prop :=
  1 ≤ lfsr_len ∧ one_indices ≠ [] ∧ (∀ t ∈ one_indices, t < lfsr_len) ∧ one_indices.Nodup

instance (lfsr_len : ℕ) (one_indices : List ℕ) : Decidable (ValidPoly lfsr_len one_indices) := by
  unfold ValidPoly
  infer_instance

/-- Failure modes of `parse_polynomial` (Python `AssertionError` on the two
`assert` statements, and `SyntaxError` from `eval` on non-numeric digits). -/
inductive ParseErr where
  | MalformedPolynomial
  | ZeroPolynomial
  | EvalError
deriving DecidableEq

instance {ε α : Type} [DecidableEq ε] [DecidableEq α] : DecidableEq (Except ε α) := fun a b =>
  match a, b with
  | .error e, .error f =>
    if h : e = f then .isTrue (by rw [h]) else .isFalse (by intro hc; cases hc; exact h rfl)
  | .error _, .ok _ => .isFalse (by intro hc; cases hc)
  | .ok _, .error _ => .isFalse (by intro hc; cases hc)
  | .ok x, .ok y =>
    if h : x = y then .isTrue (by rw [h]) else .isFalse (by intro hc; cases hc; exact h rfl)

/-- Value of a string of binary digit characters, most significant first;
`none` on any character other than `'0'`/`'1'` (Python `eval` would raise). -/
def binValGo (acc : ℕ) : List Char → Option ℕ
  | [] => some acc
  | c :: cs =>
    if c = '0' then binValGo (2 * acc) cs
    else if c = '1' then binValGo (2 * acc + 1) cs
    else none

/-- Value of the digit part of a `0b` literal; the empty digit string is not
a literal (Python `eval("0b")` raises). -/
def binVal (cs : List Char) : Option ℕ :=
  if cs = [] then none else binValGo 0 cs

/-- Value of one hexadecimal digit character. -/
def hexDigitVal (c : Char) : Option ℕ :=
  if '0' ≤ c ∧ c ≤ '9' then some (c.toNat - '0'.toNat)
  else if 'a' ≤ c ∧ c ≤ 'f' then some (c.toNat - 'a'.toNat + 10)
  else if 'A' ≤ c ∧ c ≤ 'F' then some (c.toNat - 'A'.toNat + 10)
  else none

/-- Value of a string of hexadecimal digit characters, most significant
first; `none` on any non-hex character. -/
def hexValGo (acc : ℕ) : List Char → Option ℕ
  | [] => some acc
  | c :: cs =>
    match hexDigitVal c with
    | some d => hexValGo (16 * acc + d) cs
    | none => none

/-- Value of the digit part of a `0x` literal; the empty digit string is not
a literal. -/
def hexVal (cs : List Char) : Option ℕ :=
  if cs = [] then none else hexValGo 0 cs

/-- Helper for `natToBinDigits`, structurally recursive on a fuel bound so
it evaluates inside the kernel. -/
def natToBinAux : ℕ → ℕ → List Char
  | 0, _ => []
  | fuel + 1, n =>
    if n = 0 then []
    else natToBinAux fuel (n / 2) ++ [if n % 2 = 1 then '1' else '0']

/-- Binary digits of `n`, most significant first, no leading zeros; empty
for `n = 0` (`n` halvings always suffice as fuel). -/
def natToBinDigits (n : ℕ) : List Char :=
  natToBinAux n n

/-- Digit part of Python's `bin(n)` (which renders `bin(0)` as `"0b0"`). -/
def pyBinDigits (n : ℕ) : List Char :=
  if n = 0 then ['0'] else natToBinDigits n

/-- Embedding of the index-collecting loop of `parse_polynomial`:
`for ii in range(len(bin_str)): if bin_str[ii]=='1':
one_indices.append(lfsr_len-1-ii)`.  `ii` is the running position. -/
def one_indices_go (lfsr_len : ℕ) : ℕ → List Char → List ℕ
  | _, [] => []
  | ii, c :: cs =>
    if c = '1' then (lfsr_len - 1 - ii) :: one_indices_go lfsr_len (ii + 1) cs
    else one_indices_go lfsr_len (ii + 1) cs

/-- Tap indices extracted from a binary digit string of length `lfsr_len`. -/
def one_indices_of (lfsr_len : ℕ) (bin_str : List Char) : List ℕ :=
  one_indices_go lfsr_len 0 bin_str

/-- Embedding of Python's `gen_poly.startswith('0b')` by direct inspection
of the first two characters. -/
def startsWith0b (s : String) : Bool :=
  decide (s.toList.take 2 = ['0', 'b'])

/-- Embedding of Python's `gen_poly.startswith('0x')`. -/
def startsWith0x (s : String) : Bool :=
  decide (s.toList.take 2 = ['0', 'x'])

/-- Embedding of `parse_polynomial` (textually identical in `vgen_rand.py`
and `vgen_lfsr.py`): check the `0b`/`0x` base prefix, convert a hex literal
to its binary form via `bin(eval(...))`, reject a zero value, and collect
the indices of the `1` digits counted from the least-significant end.
Python's string slice `gen_poly[2:]` is `toList.drop 2`. -/
def parse_polynomial (gen_poly : String) : Except ParseErr (ℕ × List ℕ) :=
  if startsWith0b gen_poly then
    match binVal (gen_poly.toList.drop 2) with
    | none => .error .EvalError
    | some v =>
      if v = 0 then .error .ZeroPolynomial
      else
        .ok ((gen_poly.toList.drop 2).length,
          one_indices_of (gen_poly.toList.drop 2).length (gen_poly.toList.drop 2))
  else if startsWith0x gen_poly then
    match hexVal (gen_poly.toList.drop 2) with
    | none => .error .EvalError
    | some v =>
      match binVal (pyBinDigits v) with
      | none => .error .EvalError
      | some v2 =>
        if v2 = 0 then .error .ZeroPolynomial
        else .ok ((pyBinDigits v).length, one_indices_of (pyBinDigits v).length (pyBinDigits v))
  else .error .MalformedPolynomial

/-- Numeric value of a prefixed literal, when it has one. -/
def literal_value (gen_poly : String) : Option ℕ :=
  if startsWith0b gen_poly then binVal (gen_poly.toList.drop 2)
  else if startsWith0x gen_poly then hexVal (gen_poly.toList.drop 2)
  else none

/-! Spec-side reference definitions.  These follow the specification's words
(for the refinement claims), not the source code, and are compared with the
source embedding by the theorems below. -/

/-- Follows the spec's words (§4.3 step 2a): the feedback SymbolicTerm is
the repeated XOR (symmetric difference) of the RegisterSnapshot's cells at
every tap index. -/
def spec_feedback (taps : List ℕ) (cells : List (Finset ℕ)) : Finset ℕ :=
  taps.foldl (fun acc t => symmDiff acc (cells.getD t ∅)) ∅

/-- Follows the spec's words (§4.3 step 2c): cell `i` takes the previous
value of cell `i-1` (simultaneous reading of the pre-shift snapshot), and
cell 0 is overwritten with the feedback term just computed. -/
def spec_shift (fb : Finset ℕ) (cells : List (Finset ℕ)) : List (Finset ℕ) :=
  (List.range cells.length).map fun i => if i = 0 then fb else cells.getD (i - 1) ∅

/-- Follows the spec's words (§4.3 step 2): per cycle, record the feedback
term and shift. -/
def spec_expand_loop (taps : List ℕ) : ℕ → List (Finset ℕ) → List (Finset ℕ)
  | 0, _ => []
  | n + 1, cells =>
    let fb := spec_feedback taps cells
    fb :: spec_expand_loop taps n (spec_shift fb cells)

/-- Follows the spec's words (§4.3): initialize cell `i = {i}` and run `n`
cycles, returning the recorded output terms in cycle order. -/
def spec_expand (width : ℕ) (taps : List ℕ) (n : ℕ) : List (Finset ℕ) :=
  spec_expand_loop taps n (init_sets width)

/-- Follows the spec's words (§4.2): the feedback bit is the XOR of the
current register's bits at every tap index.  Bits live in `ZMod 2`, where
XOR is addition. -/
def lfsr_fb (taps : List ℕ) (st : List (ZMod 2)) : ZMod 2 :=
  taps.foldl (fun acc t => acc + st.getD t 0) 0

/-- Follows the spec's words (§4.2, reset not asserted): the register shifts
one position toward the most-significant end, the vacated least-significant
cell receives the freshly computed feedback bit, and the most-significant
cell's prior value is discarded.  Index 0 is the least-significant cell. -/
def lfsr_step (taps : List ℕ) (st : List (ZMod 2)) : List (ZMod 2) :=
  lfsr_fb taps st :: st.dropLast

/-- Feedback bit observed at cycle `k` of a concrete numeric simulation
started from register state `st`. -/
def lfsr_sim (taps : List ℕ) (st : List (ZMod 2)) : ℕ → ZMod 2
  | 0 => lfsr_fb taps st
  | k + 1 => lfsr_sim taps (lfsr_step taps st) k

/-- Value of a SymbolicTerm on a concrete seed: the XOR (sum in `ZMod 2`) of
the seed bits at the term's indices. -/
def evalTerm (seed : List (ZMod 2)) (s : Finset ℕ) : ZMod 2 :=
  ∑ j in s, seed.getD j 0

/-! Embedding of the text emitters.  Python's `list(set)` enumeration order
is unspecified by the language; following the spec's DESIGN NOTES the model
enumerates a `Finset` in ascending order. -/

/-- Ascending enumeration of a `Finset`, the model of Python's `list(set)`. -/
def sortAsc (s : Finset ℕ) : List ℕ :=
  s.sort (· ≤ ·)

/-- Embedding of one emitted assignment of `vgen_rand.gen_verilog`:
`"    assign out[ww] = seed[i0]"` followed by `" ^ seed[i]"` for each
further index and a closing `";\n"`. -/
def assign_stmt (ww : ℕ) (term : List ℕ) : String :=
  "    assign out[" ++ toString ww ++ "] = seed[" ++ toString (term.getD 0 0) ++ "]"
    ++ String.join ((term.drop 1).map fun jj => " ^ seed[" ++ toString jj ++ "]")
    ++ ";\n"

/-- Embedding of the assignment-emitting loop of `vgen_rand.gen_verilog`:
one statement per entry of `rand_out`. -/
def parallel_assigns (rand_out : List (Finset ℕ)) : List String :=
  (List.range rand_out.length).map fun ww => assign_stmt ww (sortAsc (rand_out.getD ww ∅))

/-- Embedding of the `vgen_rand.main` pipeline up to the body statements of
the artifact: parse, expand, emit.  A parse failure aborts before any
output text exists. -/
def run_vgen_rand (gen_poly : String) (out_width : ℤ) : Except ParseErr (List String) :=
  match parse_polynomial gen_poly with
  | .error e => .error e
  | .ok (lfsr_len, one_indices) =>
    .ok (parallel_assigns (gen_random lfsr_len one_indices out_width))

/-- Embedding of the output-port declaration emitted by
`vgen_lfsr.gen_verilog`: the state register signal is declared `lfsr`. -/
def lfsr_output_decl (lfsr_len : ℕ) : String :=
  "    output [" ++ toString lfsr_len ++ "-1:0]  lfsr\n"

/-- Embedding of the feedback equation emitted by `vgen_lfsr.gen_verilog`:
`"assign fb = lsfr[t0] ^ lsfr[t1] ..."` (the source writes `lsfr`, not the
declared `lfsr`). -/
def lfsr_fb_assign (one_indices : List ℕ) : String :=
  "    assign fb = lsfr[" ++ toString (one_indices.getD 0 0) ++ "]"
    ++ String.join ((one_indices.drop 1).map fun oo => " ^ lsfr[" ++ toString oo ++ "]")
    ++ ";\n\n"

/-- Embedding of the shift assignment inside the clocked process of
`vgen_lfsr.gen_verilog` (Python computes `lfsr_len - 2` with `int`
arithmetic, hence the `ℤ` subtraction). -/
def lfsr_shift_stmt (lfsr_len : ℕ) : String :=
  "            lfsr <= \x7blsfr[" ++ toString ((lfsr_len : ℤ) - 2) ++ ":0], fb\x7d;\n"

/-! Characterization of the in-place descending shift loop of `gen_random`:
performed from the highest index downward, the assignments
`cur_sets[ii] = cur_sets[ii-1]` never read an already-overwritten cell, so
the loop realizes the simultaneous shift `xor_out :: cur_sets.dropLast`. -/

lemma shiftDown_length (k : ℕ) (cur : List (Finset ℕ)) :
    (shiftDown k cur).length = cur.length := by
  induction k generalizing cur with
  | zero => rfl
  | succ ii ih => simp [shiftDown, ih]

lemma shiftDown_getElem? (k : ℕ) (cur : List (Finset ℕ)) (hk : k < cur.length) (j : ℕ) :
    (shiftDown k cur)[j]? = if 1 ≤ j ∧ j ≤ k then cur[j - 1]? else cur[j]? := by
  induction k generalizing cur with
  | zero =>
    have h0 : ¬(1 ≤ j ∧ j ≤ 0) := by omega
    rw [shiftDown, if_neg h0]
  | succ ii ih =>
    have hlen : ii < (cur.set (ii + 1) (cur.getD ii ∅)).length := by
      simp only [List.length_set]; omega
    rw [shiftDown, ih _ hlen]
    by_cases h1 : 1 ≤ j ∧ j ≤ ii
    · rw [if_pos h1, if_pos (by omega), List.getElem?_set_ne (by omega)]
    · by_cases h2 : j = ii + 1
      · subst h2
        rw [if_neg h1, if_pos (by omega), List.getElem?_set_self (by omega)]
        have h3 : ii + 1 - 1 = ii := by omega
        rw [h3, List.getD_eq_getElem?_getD,
          List.getElem?_eq_getElem (by omega : ii < cur.length)]
        rfl
      · rw [if_neg h1, if_neg (by omega), List.getElem?_set_ne (by omega)]

lemma step_sets_eq (lfsr_len : ℕ) (xor_out : Finset ℕ) (cur : List (Finset ℕ))
    (hw : 1 ≤ lfsr_len) (hlen : cur.length = lfsr_len) :
    step_sets lfsr_len xor_out cur = xor_out :: cur.dropLast := by
  have hsd : ∀ j, (shiftDown (lfsr_len - 1) cur)[j]? =
      if 1 ≤ j ∧ j ≤ lfsr_len - 1 then cur[j - 1]? else cur[j]? :=
    shiftDown_getElem? (lfsr_len - 1) cur (by omega)
  apply List.ext_getElem?
  intro n
  rw [step_sets, List.getElem?_set]
  rcases n with _ | i
  · have h0 : 0 < (shiftDown (lfsr_len - 1) cur).length := by
      rw [shiftDown_length]; omega
    simp [h0]
  · have hne : (0 : ℕ) ≠ i + 1 := by omega
    rw [if_neg hne, hsd (i + 1), List.getElem?_cons_succ, List.getElem?_dropLast]
    by_cases hi : i < cur.length - 1
    · rw [if_pos (by omega), if_pos hi]
      congr 1
    · rw [if_neg (by omega), if_neg hi, List.getElem?_eq_none (by omega)]

lemma step_sets_length (lfsr_len : ℕ) (xor_out : Finset ℕ) (cur : List (Finset ℕ)) :
    (step_sets lfsr_len xor_out cur).length = cur.length := by
  simp [step_sets, shiftDown_length]

lemma gen_random_loop_length (lfsr_len : ℕ) (one_indices : List ℕ) :
    ∀ (n : ℕ) (cur : List (Finset ℕ)),
      (gen_random_loop lfsr_len one_indices n cur).length = n := by
  intro n
  induction n with
  | zero => intro cur; rfl
  | succ m ih => intro cur; simp [gen_random_loop, ih]

lemma init_sets_length (lfsr_len : ℕ) : (init_sets lfsr_len).length = lfsr_len := by
  simp [init_sets]

lemma init_sets_getD (lfsr_len : ℕ) (i : ℕ) (hi : i < lfsr_len) :
    (init_sets lfsr_len).getD i ∅ = {i} := by
  simp [init_sets, List.getD_eq_getElem?_getD, List.getElem?_map, List.getElem?_range hi]

lemma getD_some_of_lt {α : Type} (l : List α) (d : α) (i : ℕ) (h : i < l.length) :
    l[i]? = some (l.getD i d) := by
  rw [List.getD_eq_getElem?_getD, List.getElem?_eq_getElem h]
  rfl

lemma getD_dropLast {α : Type} (l : List α) (d : α) (i : ℕ) :
    l.dropLast.getD i d = if i < l.length - 1 then l.getD i d else d := by
  rw [List.getD_eq_getElem?_getD, List.getElem?_dropLast]
  split
  · rw [List.getD_eq_getElem?_getD]
  · rfl

/-! Agreement between `xor_two_sets` and symmetric difference, and between
the source's loops and the spec's algorithm description. -/

lemma xor_two_sets_symmDiff (s t : Finset ℕ) : xor_two_sets s t = symmDiff s t := by
  rw [xor_two_sets, symmDiff_eq_sup_sdiff_inf]
  rfl

lemma spec_feedback_eq (taps : List ℕ) (cells : List (Finset ℕ)) :
    xor_out_of taps cells = spec_feedback taps cells := by
  unfold xor_out_of spec_feedback
  congr 1
  funext acc oo
  exact xor_two_sets_symmDiff acc (cells.getD oo ∅)

lemma spec_shift_eq (fb : Finset ℕ) (cells : List (Finset ℕ)) (hne : cells ≠ []) :
    spec_shift fb cells = fb :: cells.dropLast := by
  have hpos : 0 < cells.length := List.length_pos.mpr hne
  apply List.ext_getElem?
  intro n
  rw [spec_shift, List.getElem?_map]
  rcases n with _ | i
  · rw [List.getElem?_range hpos]
    simp
  · rw [List.getElem?_cons_succ, List.getElem?_dropLast]
    by_cases hi : i + 1 < cells.length
    · rw [List.getElem?_range hi, if_pos (by omega), Option.map_some']
      rw [if_neg (by omega)]
      have h1 : i + 1 - 1 = i := by omega
      rw [h1]
      exact (getD_some_of_lt cells ∅ i (by omega)).symm
    · rw [List.getElem?_eq_none (by simpa using (by omega : cells.length ≤ i + 1)),
        if_neg (by omega)]
      rfl

lemma gen_random_loop_spec (lfsr_len : ℕ) (one_indices : List ℕ) (hw : 1 ≤ lfsr_len) :
    ∀ (n : ℕ) (cells : List (Finset ℕ)), cells.length = lfsr_len →
      gen_random_loop lfsr_len one_indices n cells = spec_expand_loop one_indices n cells := by
  intro n
  induction n with
  | zero => intro cells _; rfl
  | succ m ih =>
    intro cells hlen
    rw [gen_random_loop, spec_expand_loop]
    have hfb : xor_out_of one_indices cells = spec_feedback one_indices cells :=
      spec_feedback_eq one_indices cells
    have hstep : step_sets lfsr_len (spec_feedback one_indices cells) cells
        = spec_shift (spec_feedback one_indices cells) cells := by
      rw [step_sets_eq lfsr_len _ cells hw hlen,
        spec_shift_eq _ cells (by intro hnil; rw [hnil] at hlen; simp at hlen; omega)]
    rw [hfb, hstep]
    congr 1
    apply ih
    rw [← hstep, step_sets_length, hlen]

lemma gen_random_spec (lfsr_len : ℕ) (one_indices : List ℕ) (hw : 1 ≤ lfsr_len)
    (rand_wd : ℤ) :
    gen_random lfsr_len one_indices rand_wd = spec_expand lfsr_len one_indices rand_wd.toNat :=
  gen_random_loop_spec lfsr_len one_indices hw rand_wd.toNat (init_sets lfsr_len)
    (init_sets_length lfsr_len)

/-- Claim C2: for every validated polynomial and every requested width,
`gen_random` returns exactly `N` SymbolicTerms in cycle order, computed by
the exact algorithm of the spec (initial singleton cells, per-cycle
symmetric difference over the taps, simultaneous shift with the recorded
term entering cell 0); `N = 0` yields the empty OutputSchedule and there is
no failure path. -/
theorem C2_gen_random_follows_algorithm (lfsr_len : ℕ) (one_indices : List ℕ)
    (h : ValidPoly lfsr_len one_indices) (rand_wd : ℤ) :
    gen_random lfsr_len one_indices rand_wd = spec_expand lfsr_len one_indices rand_wd.toNat
    ∧ (gen_random lfsr_len one_indices rand_wd).length = rand_wd.toNat
    ∧ gen_random lfsr_len one_indices 0 = [] := by
  refine ⟨gen_random_spec lfsr_len one_indices h.1 rand_wd, ?_, rfl⟩
  rw [gen_random, gen_random_loop_length]

/-- Claim C2 witness at a concrete validated polynomial and width. -/
theorem C2_gen_random_follows_algorithm_witness :
    gen_random 6 [5, 4, 2, 1] 3 = spec_expand 6 [5, 4, 2, 1] 3
    ∧ (gen_random 6 [5, 4, 2, 1] 3).length = 3
    ∧ gen_random 6 [5, 4, 2, 1] 0 = [] := by
  have h := C2_gen_random_follows_algorithm 6 [5, 4, 2, 1] (by decide) 3
  exact ⟨h.1, h.2.1, h.2.2⟩

/-- Claim C9: `xor_two_sets` computes exactly the symmetric difference of
its arguments (union minus intersection); it is self-cancelling,
commutative and associative. -/
theorem C9_xor_two_sets_is_symmetric_difference :
    (∀ s t : Finset ℕ, xor_two_sets s t = (s ∪ t) \ (s ∩ t)
      ∧ xor_two_sets s t = symmDiff s t)
    ∧ (∀ t : Finset ℕ, xor_two_sets t t = ∅)
    ∧ (∀ s t : Finset ℕ, xor_two_sets s t = xor_two_sets t s)
    ∧ (∀ s t u : Finset ℕ,
        xor_two_sets (xor_two_sets s t) u = xor_two_sets s (xor_two_sets t u)) := by
  refine ⟨fun s t => ⟨rfl, xor_two_sets_symmDiff s t⟩, ?_, ?_, ?_⟩
  · intro t
    rw [xor_two_sets_symmDiff, symmDiff_self]
    rfl
  · intro s t
    rw [xor_two_sets_symmDiff, xor_two_sets_symmDiff, symmDiff_comm]
  · intro s t u
    rw [xor_two_sets_symmDiff, xor_two_sets_symmDiff, xor_two_sets_symmDiff,
      xor_two_sets_symmDiff, symmDiff_assoc]

/-- Claim C10: a negative requested output width is not rejected:
`gen_random` returns the empty OutputSchedule, exactly as for `N = 0`
(Python's `range` over a negative bound is empty; no `InvalidOutputWidth`
path exists). -/
theorem C10_negative_width_yields_empty (lfsr_len : ℕ) (one_indices : List ℕ)
    (h : ValidPoly lfsr_len one_indices) (rand_wd : ℤ) (hneg : rand_wd < 0) :
    gen_random lfsr_len one_indices rand_wd = []
    ∧ gen_random lfsr_len one_indices rand_wd = gen_random lfsr_len one_indices 0 := by
  have h0 : rand_wd.toNat = 0 := Int.toNat_of_nonpos (le_of_lt hneg)
  constructor
  · rw [gen_random, h0]
    rfl
  · rw [gen_random, gen_random, h0]
    rfl

/-- Claim C10 witness at a concrete validated polynomial and a negative
width. -/
theorem C10_negative_width_yields_empty_witness :
    gen_random 6 [5, 4, 2, 1] (-7) = []
    ∧ gen_random 6 [5, 4, 2, 1] (-7) = gen_random 6 [5, 4, 2, 1] 0 :=
  C10_negative_width_yields_empty 6 [5, 4, 2, 1] (by decide) (-7) (by decide)

/-! Sums over a symmetric difference in a monoid where every element is
self-inverse, specialised below to seed evaluation (`ZMod 2`) and to the
polynomial encoding (`Polynomial (ZMod 2)`). -/

lemma sum_xor_two_sets {M : Type} [AddCommMonoid M] (h2 : ∀ x : M, x + x = 0)
    (f : ℕ → M) (a b : Finset ℕ) :
    ∑ j in xor_two_sets a b, f j = (∑ j in a, f j) + ∑ j in b, f j := by
  have hsub : a ∩ b ⊆ a ∪ b := Finset.inter_subset_left.trans Finset.subset_union_left
  have e1 : (∑ j in (a ∪ b) \ (a ∩ b), f j) + ∑ j in a ∩ b, f j = ∑ j in a ∪ b, f j :=
    Finset.sum_sdiff hsub
  have e2 : (∑ j in a ∪ b, f j) + ∑ j in a ∩ b, f j = (∑ j in a, f j) + ∑ j in b, f j :=
    Finset.sum_union_inter
  calc ∑ j in xor_two_sets a b, f j
      = (∑ j in xor_two_sets a b, f j) + ((∑ j in a ∩ b, f j) + ∑ j in a ∩ b, f j) := by
        rw [h2 (∑ j in a ∩ b, f j), add_zero]
    _ = ((∑ j in (a ∪ b) \ (a ∩ b), f j) + ∑ j in a ∩ b, f j) + ∑ j in a ∩ b, f j := by
        rw [← add_assoc]; rfl
    _ = (∑ j in a ∪ b, f j) + ∑ j in a ∩ b, f j := by rw [e1]
    _ = (∑ j in a, f j) + ∑ j in b, f j := e2

lemma zmod2_add_self : ∀ x : ZMod 2, x + x = 0 := by decide

lemma evalTerm_xor (seed : List (ZMod 2)) (a b : Finset ℕ) :
    evalTerm seed (xor_two_sets a b) = evalTerm seed a + evalTerm seed b :=
  sum_xor_two_sets zmod2_add_self (fun j => seed.getD j 0) a b

lemma evalTerm_fold_aux (seed : List (ZMod 2)) (cells : List (Finset ℕ))
    (st : List (ZMod 2)) (hrel : ∀ i, evalTerm seed (cells.getD i ∅) = st.getD i 0) :
    ∀ (taps : List ℕ) (acc : Finset ℕ) (accz : ZMod 2), evalTerm seed acc = accz →
      evalTerm seed (taps.foldl (fun a oo => xor_two_sets a (cells.getD oo ∅)) acc)
        = taps.foldl (fun a t => a + st.getD t 0) accz := by
  intro taps
  induction taps with
  | nil => intro acc accz hacc; exact hacc
  | cons t ts ih =>
    intro acc accz hacc
    rw [List.foldl_cons, List.foldl_cons]
    apply ih
    rw [evalTerm_xor, hacc, hrel t]

lemma evalTerm_xor_out (seed : List (ZMod 2)) (taps : List ℕ) (cells : List (Finset ℕ))
    (st : List (ZMod 2)) (hrel : ∀ i, evalTerm seed (cells.getD i ∅) = st.getD i 0) :
    evalTerm seed (xor_out_of taps cells) = lfsr_fb taps st :=
  evalTerm_fold_aux seed cells st hrel taps ∅ 0 (Finset.sum_empty)

lemma rel_shift (seed : List (ZMod 2)) (cells : List (Finset ℕ)) (st : List (ZMod 2))
    (hlen : cells.length = st.length)
    (hrel : ∀ i, evalTerm seed (cells.getD i ∅) = st.getD i 0)
    (xo : Finset ℕ) (fz : ZMod 2) (hx : evalTerm seed xo = fz) :
    ∀ i, evalTerm seed ((xo :: cells.dropLast).getD i ∅)
      = (fz :: st.dropLast).getD i 0 := by
  intro i
  rcases i with _ | i
  · exact hx
  · rw [List.getD_cons_succ, List.getD_cons_succ, getD_dropLast, getD_dropLast, ← hlen]
    by_cases hi : i < cells.length - 1
    · rw [if_pos hi, if_pos hi]
      exact hrel i
    · rw [if_neg hi, if_neg hi]
      exact Finset.sum_empty

lemma loop_sim (seed : List (ZMod 2)) (lfsr_len : ℕ) (one_indices : List ℕ)
    (hw : 1 ≤ lfsr_len) :
    ∀ (n : ℕ) (cells : List (Finset ℕ)) (st : List (ZMod 2)),
      cells.length = lfsr_len → st.length = lfsr_len →
      (∀ i, evalTerm seed (cells.getD i ∅) = st.getD i 0) →
      ∀ k, k < n →
        evalTerm seed ((gen_random_loop lfsr_len one_indices n cells).getD k ∅)
          = lfsr_sim one_indices st k := by
  intro n
  induction n with
  | zero => intro cells st _ _ _ k hk; omega
  | succ m ih =>
    intro cells st hc hs hrel k hk
    rw [gen_random_loop]
    rcases k with _ | k
    · rw [List.getD_cons_zero]
      exact evalTerm_xor_out seed one_indices cells st hrel
    · rw [List.getD_cons_succ]
      have hstep : step_sets lfsr_len (xor_out_of one_indices cells) cells
          = xor_out_of one_indices cells :: cells.dropLast :=
        step_sets_eq lfsr_len _ cells hw hc
      rw [hstep]
      have hsim : lfsr_sim one_indices st (k + 1)
          = lfsr_sim one_indices (lfsr_step one_indices st) k := rfl
      rw [hsim]
      apply ih
      · rw [List.length_cons, List.length_dropLast, hc]
        omega
      · rw [lfsr_step, List.length_cons, List.length_dropLast, hs]
        omega
      · exact rel_shift seed cells st (by omega) hrel _ _
          (evalTerm_xor_out seed one_indices cells st hrel)
      · omega

/-- Claim C1: for every validated polynomial, every concrete seed of the
register's width and every cycle index `k` within the requested width,
XORing the seed bits at the indices of `OutputSchedule[k]` (the symbolic
expansion of `gen_random`) equals the feedback bit that a concrete
bit-level simulation of the sequential step rule (shift toward the
most-significant end, feedback bit, the XOR of the register bits at the tap
indices, entering the least-significant cell) computes at cycle `k`. -/
theorem C1_symbolic_expansion_agrees_with_simulation (lfsr_len : ℕ) (one_indices : List ℕ)
    (h : ValidPoly lfsr_len one_indices) (seed : List (ZMod 2))
    (hseed : seed.length = lfsr_len) (rand_wd : ℤ) (k : ℕ) (hk : (k : ℤ) < rand_wd) :
    evalTerm seed ((gen_random lfsr_len one_indices rand_wd).getD k ∅)
      = lfsr_sim one_indices seed k := by
  rw [gen_random]
  apply loop_sim seed lfsr_len one_indices h.1 rand_wd.toNat (init_sets lfsr_len) seed
    (init_sets_length lfsr_len) hseed
  · intro i
    by_cases hi : i < lfsr_len
    · rw [init_sets_getD lfsr_len i hi, evalTerm, Finset.sum_singleton]
    · have h1 : (init_sets lfsr_len).getD i ∅ = ∅ := by
        rw [List.getD_eq_getElem?_getD, List.getElem?_eq_none]
        · rfl
        · rw [init_sets_length]; omega
      have h2 : seed.getD i 0 = 0 := by
        rw [List.getD_eq_getElem?_getD, List.getElem?_eq_none]
        · rfl
        · omega
      rw [h1, h2]
      exact Finset.sum_empty
  · omega

/-- Claim C1 witness: a concrete polynomial, seed and cycle. -/
theorem C1_symbolic_expansion_agrees_with_simulation_witness :
    evalTerm [1, 0, 1, 1, 0, 1] ((gen_random 6 [5, 4, 2, 1] 4).getD 2 ∅)
      = lfsr_sim [5, 4, 2, 1] [1, 0, 1, 1, 0, 1] 2 :=
  C1_symbolic_expansion_agrees_with_simulation 6 [5, 4, 2, 1] (by decide)
    [1, 0, 1, 1, 0, 1] (by decide) 4 2 (by decide)

/-! Cycle-0 output: the initial cells are singletons, so the feedback fold
over distinct taps accumulates exactly the tap-index set. -/

lemma fold_singletons (lfsr_len : ℕ) :
    ∀ (taps : List ℕ) (acc : Finset ℕ), taps.Nodup → (∀ t ∈ taps, t < lfsr_len) →
      (∀ t ∈ taps, t ∉ acc) →
      taps.foldl (fun a oo => xor_two_sets a ((init_sets lfsr_len).getD oo ∅)) acc
        = acc ∪ taps.toFinset := by
  intro taps
  induction taps with
  | nil => intro acc _ _ _; simp
  | cons t ts ih =>
    intro acc hnd hbound hdisj
    rw [List.foldl_cons, init_sets_getD lfsr_len t (hbound t (by simp))]
    have hxt : xor_two_sets acc {t} = acc ∪ {t} := by
      rw [xor_two_sets, Finset.inter_singleton_of_not_mem (hdisj t (by simp)),
        Finset.sdiff_empty]
    rw [hxt, ih (acc ∪ {t}) (List.Nodup.of_cons hnd)
      (fun u hu => hbound u (List.mem_cons_of_mem t hu))
      (fun u hu => by
        simp only [Finset.mem_union, Finset.mem_singleton]
        push_neg
        refine ⟨hdisj u (List.mem_cons_of_mem t hu), ?_⟩
        intro he
        subst he
        exact (List.nodup_cons.mp hnd).1 hu)]
    rw [List.toFinset_cons, Finset.union_assoc, Finset.insert_eq]

lemma xor_out_init (lfsr_len : ℕ) (taps : List ℕ) (hnd : taps.Nodup)
    (hbound : ∀ t ∈ taps, t < lfsr_len) :
    xor_out_of taps (init_sets lfsr_len) = taps.toFinset := by
  rw [xor_out_of, fold_singletons lfsr_len taps ∅ hnd hbound (by simp), Finset.empty_union]

/-- Claim C5: for every validated polynomial and every `N ≥ 1`, the cycle-0
output term of `gen_random` equals exactly the set of tap indices; in
particular, for the literal `0b110110` (width 6, taps `[5,4,2,1]`) with
`N = 1` the schedule is `[{1,2,4,5}]`. -/
theorem C5_cycle0_term_is_tap_set (lfsr_len : ℕ) (one_indices : List ℕ)
    (h : ValidPoly lfsr_len one_indices) (rand_wd : ℤ) (hpos : 1 ≤ rand_wd) :
    (gen_random lfsr_len one_indices rand_wd).getD 0 ∅ = one_indices.toFinset
    ∧ parse_polynomial "0b110110" = .ok (6, [5, 4, 2, 1])
    ∧ gen_random 6 [5, 4, 2, 1] 1 = [({1, 2, 4, 5} : Finset ℕ)] := by
  refine ⟨?_, by decide, by decide⟩
  rw [gen_random]
  rcases hn : rand_wd.toNat with _ | m
  · omega
  · rw [gen_random_loop, List.getD_cons_zero]
    exact xor_out_init lfsr_len one_indices h.2.2.2 h.2.2.1

/-- Claim C5 witness at a concrete validated polynomial and width. -/
theorem C5_cycle0_term_is_tap_set_witness :
    (gen_random 6 [5, 4, 2, 1] 2).getD 0 ∅ = ([5, 4, 2, 1] : List ℕ).toFinset
    ∧ parse_polynomial "0b110110" = .ok (6, [5, 4, 2, 1])
    ∧ gen_random 6 [5, 4, 2, 1] 1 = [({1, 2, 4, 5} : Finset ℕ)] :=
  C5_cycle0_term_is_tap_set 6 [5, 4, 2, 1] (by decide) 2 (by decide)

/-! Range-boundedness of every output term: all cells stay inside
`Finset.range lfsr_len`, and the feedback fold preserves this. -/

lemma xor_out_subset (taps : List ℕ) (cells : List (Finset ℕ)) (lfsr_len : ℕ)
    (hcells : ∀ i, cells.getD i ∅ ⊆ Finset.range lfsr_len) :
    xor_out_of taps cells ⊆ Finset.range lfsr_len := by
  rw [xor_out_of]
  suffices h : ∀ (l : List ℕ) (acc : Finset ℕ), acc ⊆ Finset.range lfsr_len →
      l.foldl (fun a oo => xor_two_sets a (cells.getD oo ∅)) acc ⊆ Finset.range lfsr_len by
    exact h taps ∅ (Finset.empty_subset _)
  intro l
  induction l with
  | nil => intro acc hacc; exact hacc
  | cons t ts ih =>
    intro acc hacc
    rw [List.foldl_cons]
    apply ih
    intro x hx
    have hx2 : x ∈ acc ∪ cells.getD t ∅ := (Finset.mem_sdiff.mp hx).1
    rcases Finset.mem_union.mp hx2 with hxa | hxc
    · exact hacc hxa
    · exact hcells t hxc

lemma shifted_cells_subset (lfsr_len : ℕ) (xo : Finset ℕ) (cells : List (Finset ℕ))
    (hxo : xo ⊆ Finset.range lfsr_len)
    (hcells : ∀ i, cells.getD i ∅ ⊆ Finset.range lfsr_len) :
    ∀ i, (xo :: cells.dropLast).getD i ∅ ⊆ Finset.range lfsr_len := by
  intro i
  rcases i with _ | j
  · exact hxo
  · rw [List.getD_cons_succ, getD_dropLast]
    split
    · exact hcells j
    · exact Finset.empty_subset _

lemma loop_subset (taps : List ℕ) (lfsr_len : ℕ) (hw : 1 ≤ lfsr_len) :
    ∀ (n : ℕ) (cells : List (Finset ℕ)), cells.length = lfsr_len →
      (∀ i, cells.getD i ∅ ⊆ Finset.range lfsr_len) →
      ∀ S ∈ gen_random_loop lfsr_len taps n cells, S ⊆ Finset.range lfsr_len := by
  intro n
  induction n with
  | zero => intro cells _ _ S hS; simp [gen_random_loop] at hS
  | succ m ih =>
    intro cells hc hcells S hS
    rw [gen_random_loop] at hS
    rcases List.mem_cons.mp hS with rfl | hS2
    · exact xor_out_subset taps cells lfsr_len hcells
    · rw [step_sets_eq lfsr_len _ cells hw hc] at hS2
      exact ih _ (by rw [List.length_cons, List.length_dropLast, hc]; omega)
        (shifted_cells_subset lfsr_len _ cells
          (xor_out_subset taps cells lfsr_len hcells) hcells) S hS2

/-! Nonemptiness of every output term.  A SymbolicTerm is encoded as a
polynomial over `ZMod 2` (the set of exponents with coefficient 1); the
invariant `genPoly ∣ X^k * encode (cell i at cycle k) + X^i` holds through
the loop, so each cycle-`k` output term `o` satisfies
`genPoly ∣ X^(k+1) * encode o + 1`.  An empty output term would make
`genPoly` divide 1, impossible because `genPoly` has positive degree. -/

noncomputable def encode (s : Finset ℕ) : Polynomial (ZMod 2) :=
  ∑ j in s, Polynomial.X ^ j

noncomputable def tapPoly (taps : List ℕ) : Polynomial (ZMod 2) :=
  encode taps.toFinset

noncomputable def genPoly (taps : List ℕ) : Polynomial (ZMod 2) :=
  Polynomial.X * tapPoly taps + 1

lemma poly_add_self (p : Polynomial (ZMod 2)) : p + p = 0 := by
  ext n
  rw [Polynomial.coeff_add, Polynomial.coeff_zero]
  exact zmod2_add_self _

lemma encode_coeff (s : Finset ℕ) (n : ℕ) :
    (encode s).coeff n = if n ∈ s then 1 else 0 := by
  simp [encode, Polynomial.finset_sum_coeff, Polynomial.coeff_X_pow]

lemma encode_empty : encode ∅ = 0 :=
  Finset.sum_empty

lemma encode_ne_zero (s : Finset ℕ) (hs : s ≠ ∅) : encode s ≠ 0 := by
  obtain ⟨m, hm⟩ := Finset.nonempty_iff_ne_empty.mpr hs
  intro h0
  have hc := encode_coeff s m
  rw [h0, Polynomial.coeff_zero, if_pos hm] at hc
  exact one_ne_zero hc.symm

lemma encode_xor (a b : Finset ℕ) :
    encode (xor_two_sets a b) = encode a + encode b :=
  sum_xor_two_sets poly_add_self (fun j => Polynomial.X ^ j) a b

lemma encode_fold_aux (cells : List (Finset ℕ)) :
    ∀ (taps : List ℕ) (acc : Finset ℕ),
      encode (taps.foldl (fun a oo => xor_two_sets a (cells.getD oo ∅)) acc)
        = encode acc + (taps.map fun t => encode (cells.getD t ∅)).sum := by
  intro taps
  induction taps with
  | nil => intro acc; simp
  | cons t ts ih =>
    intro acc
    rw [List.foldl_cons, ih, encode_xor, List.map_cons, List.sum_cons, add_assoc]

lemma encode_xor_out (taps : List ℕ) (cells : List (Finset ℕ)) :
    encode (xor_out_of taps cells) = (taps.map fun t => encode (cells.getD t ∅)).sum := by
  rw [xor_out_of, encode_fold_aux, encode_empty, zero_add]

lemma list_sum_map_add {M : Type} [AddCommMonoid M] (l : List ℕ) (f g : ℕ → M) :
    (l.map fun x => f x + g x).sum = (l.map f).sum + (l.map g).sum := by
  induction l with
  | nil => simp
  | cons a l ih =>
    rw [List.map_cons, List.map_cons, List.map_cons, List.sum_cons, List.sum_cons,
      List.sum_cons, ih, add_add_add_comm]

/-- Loop invariant for nonemptiness: at cycle `k`, cell `i` holds a term
whose encoding is congruent to `X^(i-k)` modulo the generator polynomial
(stated multiplicatively as a divisibility to avoid negative exponents). -/
def CellsInv (taps : List ℕ) (lfsr_len k : ℕ) (cells : List (Finset ℕ)) : Prop :=
  ∀ i < lfsr_len,
    genPoly taps ∣ Polynomial.X ^ k * encode (cells.getD i ∅) + Polynomial.X ^ i

lemma cellsInv_init (taps : List ℕ) (lfsr_len : ℕ) :
    CellsInv taps lfsr_len 0 (init_sets lfsr_len) := by
  intro i hi
  rw [init_sets_getD _ i hi, pow_zero, one_mul]
  have h1 : encode {i} = Polynomial.X ^ i := by rw [encode, Finset.sum_singleton]
  rw [h1, poly_add_self]
  exact dvd_zero _

lemma fb_dvd (taps : List ℕ) (lfsr_len k : ℕ) (cells : List (Finset ℕ))
    (hnd : taps.Nodup) (hb : ∀ t ∈ taps, t < lfsr_len)
    (hInv : CellsInv taps lfsr_len k cells) :
    genPoly taps ∣ Polynomial.X ^ (k + 1) * encode (xor_out_of taps cells) + 1 := by
  have hsum : genPoly taps ∣
      (taps.map fun t => Polynomial.X ^ k * encode (cells.getD t ∅) + Polynomial.X ^ t).sum := by
    apply List.dvd_sum
    intro x hx
    obtain ⟨t, ht, rfl⟩ := List.mem_map.mp hx
    exact hInv t (hb t ht)
  have hsplit : (taps.map fun t => Polynomial.X ^ k * encode (cells.getD t ∅)
        + Polynomial.X ^ t).sum
      = Polynomial.X ^ k * encode (xor_out_of taps cells) + tapPoly taps := by
    rw [list_sum_map_add]
    congr 1
    · rw [List.sum_map_mul_left, encode_xor_out]
    · rw [tapPoly, encode, List.sum_toFinset _ hnd]
  rw [hsplit] at hsum
  have h0 : Polynomial.X * tapPoly taps + Polynomial.X * tapPoly taps = 0 := poly_add_self _
  have key : Polynomial.X ^ (k + 1) * encode (xor_out_of taps cells) + 1
      = Polynomial.X * (Polynomial.X ^ k * encode (xor_out_of taps cells) + tapPoly taps)
        + genPoly taps := by
    calc Polynomial.X ^ (k + 1) * encode (xor_out_of taps cells) + 1
        = Polynomial.X ^ (k + 1) * encode (xor_out_of taps cells) + 1
          + (Polynomial.X * tapPoly taps + Polynomial.X * tapPoly taps) := by
          rw [h0, add_zero]
      _ = Polynomial.X * (Polynomial.X ^ k * encode (xor_out_of taps cells) + tapPoly taps)
          + (Polynomial.X * tapPoly taps + 1) := by ring
      _ = Polynomial.X * (Polynomial.X ^ k * encode (xor_out_of taps cells) + tapPoly taps)
          + genPoly taps := by rw [genPoly]
  rw [key]
  exact dvd_add (hsum.mul_left _) dvd_rfl

lemma inv_step (taps : List ℕ) (lfsr_len k : ℕ) (cells : List (Finset ℕ)) (xo : Finset ℕ)
    (hInv : CellsInv taps lfsr_len k cells)
    (hxo : genPoly taps ∣ Polynomial.X ^ (k + 1) * encode xo + 1)
    (hc : cells.length = lfsr_len) :
    CellsInv taps lfsr_len (k + 1) (xo :: cells.dropLast) := by
  intro i hi
  rcases i with _ | j
  · rw [List.getD_cons_zero, pow_zero]
    exact hxo
  · rw [List.getD_cons_succ, getD_dropLast, if_pos (by omega)]
    have h1 := hInv j (by omega)
    have key : Polynomial.X ^ (k + 1) * encode (cells.getD j ∅) + Polynomial.X ^ (j + 1)
        = Polynomial.X * (Polynomial.X ^ k * encode (cells.getD j ∅) + Polynomial.X ^ j) := by
      ring
    rw [key]
    exact h1.mul_left _

lemma genPoly_not_dvd_one (taps : List ℕ) (hne : taps ≠ []) : ¬ genPoly taps ∣ 1 := by
  intro hdvd
  have hT : tapPoly taps ≠ 0 := by
    apply encode_ne_zero
    rw [ne_eq, List.toFinset_eq_empty_iff]
    exact hne
  have hdeg1 : (0 : WithBot ℕ) < (Polynomial.X * tapPoly taps).degree := by
    rw [Polynomial.degree_mul, Polynomial.degree_X, Polynomial.degree_eq_natDegree hT]
    have hn : (0 : ℕ) < 1 + (tapPoly taps).natDegree := by omega
    exact_mod_cast hn
  have hdegP : (genPoly taps).degree = (Polynomial.X * tapPoly taps).degree := by
    rw [genPoly]
    exact Polynomial.degree_add_eq_left_of_degree_lt (by rw [Polynomial.degree_one]; exact hdeg1)
  have hle : (genPoly taps).degree ≤ 0 := by
    have h2 := Polynomial.degree_le_of_dvd hdvd one_ne_zero
    rwa [Polynomial.degree_one] at h2
  rw [hdegP] at hle
  exact absurd (lt_of_lt_of_le hdeg1 hle) (lt_irrefl _)

lemma loop_nonempty (taps : List ℕ) (lfsr_len : ℕ) (hne : taps ≠ []) (hnd : taps.Nodup)
    (hb : ∀ t ∈ taps, t < lfsr_len) (hw : 1 ≤ lfsr_len) :
    ∀ (n k : ℕ) (cells : List (Finset ℕ)), cells.length = lfsr_len →
      CellsInv taps lfsr_len k cells →
      ∀ S ∈ gen_random_loop lfsr_len taps n cells, S ≠ ∅ := by
  intro n
  induction n with
  | zero => intro k cells _ _ S hS; simp [gen_random_loop] at hS
  | succ m ih =>
    intro k cells hc hInv S hS
    rw [gen_random_loop] at hS
    have hfb := fb_dvd taps lfsr_len k cells hnd hb hInv
    rcases List.mem_cons.mp hS with rfl | hS2
    · intro hSe
      rw [hSe, encode_empty, mul_zero, zero_add] at hfb
      exact genPoly_not_dvd_one taps hne hfb
    · rw [step_sets_eq lfsr_len _ cells hw hc] at hS2
      exact ih (k + 1) _ (by rw [List.length_cons, List.length_dropLast, hc]; omega)
        (inv_step taps lfsr_len k cells _ hInv hfb hc) S hS2

/-- Claim C3: every SymbolicTerm in the OutputSchedule produced by
`gen_random`, for any validated polynomial and any cycle, is a subset of
`[0, width)` and is never the empty set. -/
theorem C3_terms_in_range_and_nonempty (lfsr_len : ℕ) (one_indices : List ℕ)
    (h : ValidPoly lfsr_len one_indices) (rand_wd : ℤ) :
    ∀ S ∈ gen_random lfsr_len one_indices rand_wd,
      S ⊆ Finset.range lfsr_len ∧ S ≠ ∅ := by
  obtain ⟨hw, hne, hb, hnd⟩ := h
  intro S hS
  rw [gen_random] at hS
  have hinit : ∀ i, (init_sets lfsr_len).getD i ∅ ⊆ Finset.range lfsr_len := by
    intro i
    by_cases hi : i < lfsr_len
    · rw [init_sets_getD _ i hi]
      intro x hx
      rw [Finset.mem_singleton] at hx
      subst hx
      exact Finset.mem_range.mpr hi
    · rw [List.getD_eq_getElem?_getD, List.getElem?_eq_none (by rw [init_sets_length]; omega)]
      exact Finset.empty_subset _
  constructor
  · exact loop_subset one_indices lfsr_len hw rand_wd.toNat (init_sets lfsr_len)
      (init_sets_length lfsr_len) hinit S hS
  · exact loop_nonempty one_indices lfsr_len hne hnd hb hw rand_wd.toNat 0
      (init_sets lfsr_len) (init_sets_length lfsr_len)
      (cellsInv_init one_indices lfsr_len) S hS

/-- Claim C3 witness at a concrete validated polynomial, width and term. -/
theorem C3_terms_in_range_and_nonempty_witness :
    ({1, 2, 4, 5} : Finset ℕ) ⊆ Finset.range 6 ∧ ({1, 2, 4, 5} : Finset ℕ) ≠ ∅ :=
  C3_terms_in_range_and_nonempty 6 [5, 4, 2, 1] (by decide) 3 {1, 2, 4, 5} (by decide)

/-! Facts about the digit-string helpers, used to settle the parsing
claims. -/

lemma binValGo_no_one : ∀ (cs : List Char) (acc v : ℕ), '1' ∉ cs →
    binValGo acc cs = some v → v = acc * 2 ^ cs.length := by
  intro cs
  induction cs with
  | nil =>
    intro acc v _ hv
    rw [binValGo, Option.some.injEq] at hv
    subst hv
    simp
  | cons c cs ih =>
    intro acc v hmem hv
    rw [binValGo] at hv
    by_cases h0 : c = '0'
    · rw [if_pos h0] at hv
      have hrec := ih (2 * acc) v (fun hc => hmem (List.mem_cons_of_mem c hc)) hv
      rw [hrec, List.length_cons, pow_succ]
      ring
    · have h1 : c ≠ '1' := fun he => hmem (he ▸ List.mem_cons_self c cs)
      rw [if_neg h0, if_neg h1] at hv
      cases hv

lemma binVal_one_mem (cs : List Char) (v : ℕ) (hv : binVal cs = some v) (hne : v ≠ 0) :
    '1' ∈ cs := by
  by_contra hmem
  rw [binVal] at hv
  split at hv
  · cases hv
  · have h0 := binValGo_no_one cs 0 v hmem hv
    rw [zero_mul] at h0
    exact hne h0

lemma binVal_ne_nil (cs : List Char) (v : ℕ) (hv : binVal cs = some v) : cs ≠ [] := by
  intro h
  rw [binVal, if_pos h] at hv
  cases hv

lemma one_indices_go_mem (lfsr_len : ℕ) :
    ∀ (cs : List Char) (ii t : ℕ), t ∈ one_indices_go lfsr_len ii cs →
      ∃ j < cs.length, t = lfsr_len - 1 - (ii + j) := by
  intro cs
  induction cs with
  | nil =>
    intro ii t ht
    rw [one_indices_go] at ht
    cases ht
  | cons c cs ih =>
    intro ii t ht
    rw [one_indices_go] at ht
    by_cases h1 : c = '1'
    · rw [if_pos h1] at ht
      rcases List.mem_cons.mp ht with rfl | ht2
      · exact ⟨0, by simp, by omega⟩
      · obtain ⟨j, hj, he⟩ := ih (ii + 1) t ht2
        exact ⟨j + 1, by simpa using Nat.succ_lt_succ hj, by omega⟩
    · rw [if_neg h1] at ht
      obtain ⟨j, hj, he⟩ := ih (ii + 1) t ht
      exact ⟨j + 1, by simpa using Nat.succ_lt_succ hj, by omega⟩

lemma one_indices_go_ne_nil (lfsr_len : ℕ) :
    ∀ (cs : List Char) (ii : ℕ), '1' ∈ cs → one_indices_go lfsr_len ii cs ≠ [] := by
  intro cs
  induction cs with
  | nil => intro ii h; cases h
  | cons c cs ih =>
    intro ii hmem
    rw [one_indices_go]
    by_cases h1 : c = '1'
    · rw [if_pos h1]
      exact List.cons_ne_nil _ _
    · rw [if_neg h1]
      rcases List.mem_cons.mp hmem with he | hmem2
      · exact absurd he.symm h1
      · exact ih (ii + 1) hmem2

lemma one_indices_go_pairwise (lfsr_len : ℕ) :
    ∀ (cs : List Char) (ii : ℕ), ii + cs.length ≤ lfsr_len →
      (one_indices_go lfsr_len ii cs).Pairwise (· > ·) := by
  intro cs
  induction cs with
  | nil => intro ii _; rw [one_indices_go]; exact List.Pairwise.nil
  | cons c cs ih =>
    intro ii hle
    rw [List.length_cons] at hle
    rw [one_indices_go]
    by_cases h1 : c = '1'
    · rw [if_pos h1]
      refine List.Pairwise.cons ?_ (ih (ii + 1) (by omega))
      intro t ht
      obtain ⟨j, hj, rfl⟩ := one_indices_go_mem lfsr_len cs (ii + 1) t ht
      omega
    · rw [if_neg h1]
      exact ih (ii + 1) (by omega)

lemma one_indices_of_valid (cs : List Char) (v : ℕ) (hv : binVal cs = some v)
    (hne : v ≠ 0) : ValidPoly cs.length (one_indices_of cs.length cs) := by
  have hcs : cs ≠ [] := binVal_ne_nil cs v hv
  have hlen : 1 ≤ cs.length := List.length_pos.mpr hcs
  have h1 : '1' ∈ cs := binVal_one_mem cs v hv hne
  refine ⟨hlen, one_indices_go_ne_nil _ cs 0 h1, ?_, ?_⟩
  · intro t ht
    obtain ⟨j, hj, rfl⟩ := one_indices_go_mem _ cs 0 t ht
    omega
  · exact (one_indices_go_pairwise _ cs 0 (by omega)).imp ne_of_gt

lemma one_indices_of_head (cs rest : List Char) (hcs : cs = '1' :: rest) :
    cs.length - 1 ∈ one_indices_of cs.length cs := by
  subst hcs
  rw [one_indices_of, one_indices_go, if_pos rfl, Nat.sub_zero]
  exact List.mem_cons_self _ _

lemma natToBinAux_fuel : ∀ (f1 f2 n : ℕ), n ≤ f1 → n ≤ f2 →
    natToBinAux f1 n = natToBinAux f2 n := by
  intro f1
  induction f1 with
  | zero =>
    intro f2 n h1 _
    have hn : n = 0 := by omega
    subst hn
    rcases f2 with _ | f2
    · rfl
    · simp [natToBinAux]
  | succ a ih =>
    intro f2 n h1 h2
    rcases f2 with _ | b
    · have hn : n = 0 := by omega
      subst hn
      simp [natToBinAux]
    · by_cases hn : n = 0
      · subst hn
        simp [natToBinAux]
      · simp only [natToBinAux, if_neg hn]
        congr 1
        exact ih b (n / 2) (by omega) (by omega)

lemma natToBinDigits_zero : natToBinDigits 0 = [] := rfl

lemma natToBinDigits_eq (n : ℕ) (h : n ≠ 0) :
    natToBinDigits n = natToBinDigits (n / 2) ++ [if n % 2 = 1 then '1' else '0'] := by
  rcases n with _ | m
  · exact absurd rfl h
  · show natToBinAux (m + 1) (m + 1) = natToBinAux ((m + 1) / 2) ((m + 1) / 2) ++ _
    simp only [natToBinAux, if_neg h]
    congr 1
    exact natToBinAux_fuel m ((m + 1) / 2) ((m + 1) / 2) (by omega) (le_refl _)

lemma natToBinDigits_head : ∀ n : ℕ, n ≠ 0 → ∃ rest, natToBinDigits n = '1' :: rest := by
  intro n
  induction n using Nat.strong_induction_on with
  | _ n ih =>
    intro hn
    rw [natToBinDigits_eq n hn]
    by_cases h2 : n / 2 = 0
    · have hn1 : n = 1 := by omega
      subst hn1
      refine ⟨[], ?_⟩
      norm_num
      exact natToBinDigits_zero
    · obtain ⟨rest, hr⟩ := ih (n / 2) (Nat.div_lt_self (by omega) one_lt_two) h2
      exact ⟨rest ++ [if n % 2 = 1 then '1' else '0'], by rw [hr]; rfl⟩

lemma binValGo_append : ∀ (ds es : List Char) (acc : ℕ),
    binValGo acc (ds ++ es) = (binValGo acc ds).bind fun a => binValGo a es := by
  intro ds
  induction ds with
  | nil => intro es acc; rfl
  | cons c cs ih =>
    intro es acc
    by_cases h0 : c = '0'
    · simp only [List.cons_append, binValGo, if_pos h0]
      exact ih es (2 * acc)
    · by_cases h1 : c = '1'
      · simp only [List.cons_append, binValGo, if_neg h0, if_pos h1]
        exact ih es (2 * acc + 1)
      · simp only [List.cons_append, binValGo, if_neg h0, if_neg h1]
        rfl

lemma binValGo_natToBin : ∀ (n acc : ℕ),
    binValGo acc (natToBinDigits n)
      = some (acc * 2 ^ (natToBinDigits n).length + n) := by
  intro n
  induction n using Nat.strong_induction_on with
  | _ n ih =>
    intro acc
    by_cases hn : n = 0
    · subst hn
      rw [natToBinDigits_zero]
      simp [binValGo]
    · rw [natToBinDigits_eq n hn, binValGo_append,
        ih (n / 2) (Nat.div_lt_self (by omega) one_lt_two) acc, Option.some_bind]
      by_cases hm : n % 2 = 1
      · rw [if_pos hm]
        have hb : ∀ a : ℕ, binValGo a ['1'] = some (2 * a + 1) := by
          intro a
          rw [binValGo, if_neg (by decide), if_pos rfl, binValGo]
        rw [hb, List.length_append, List.length_singleton, Option.some.injEq]
        calc 2 * (acc * 2 ^ (natToBinDigits (n / 2)).length + n / 2) + 1
            = acc * (2 ^ (natToBinDigits (n / 2)).length * 2) + (2 * (n / 2) + n % 2) := by
              rw [hm]; ring
          _ = acc * 2 ^ ((natToBinDigits (n / 2)).length + 1) + n := by
              rw [← pow_succ, Nat.div_add_mod]
      · rw [if_neg hm]
        have hb : ∀ a : ℕ, binValGo a ['0'] = some (2 * a) := by
          intro a
          rw [binValGo, if_pos rfl, binValGo]
        rw [hb, List.length_append, List.length_singleton, Option.some.injEq]
        have hm0 : n % 2 = 0 := by omega
        calc 2 * (acc * 2 ^ (natToBinDigits (n / 2)).length + n / 2)
            = acc * (2 ^ (natToBinDigits (n / 2)).length * 2) + (2 * (n / 2) + n % 2) := by
              rw [hm0]; ring
          _ = acc * 2 ^ ((natToBinDigits (n / 2)).length + 1) + n := by
              rw [← pow_succ, Nat.div_add_mod]

lemma binVal_natToBin (n : ℕ) (hn : n ≠ 0) : binVal (natToBinDigits n) = some n := by
  have hne : natToBinDigits n ≠ [] := by
    obtain ⟨rest, hr⟩ := natToBinDigits_head n hn
    rw [hr]
    exact List.cons_ne_nil _ _
  rw [binVal, if_neg hne, binValGo_natToBin, zero_mul, zero_add]

lemma startsWith0b_not_0x (s : String) (hb : startsWith0b s = true) :
    startsWith0x s = false := by
  rw [startsWith0b, decide_eq_true_iff] at hb
  rw [startsWith0x, decide_eq_false_iff_not]
  rw [hb]
  intro hc
  cases hc

lemma startsWith0b_cons (s : String) (hb : startsWith0b s = true) :
    s.toList = '0' :: 'b' :: s.toList.drop 2 := by
  rw [startsWith0b, decide_eq_true_iff] at hb
  have h1 := List.take_append_drop 2 s.toList
  rw [hb] at h1
  exact h1.symm

/-- Claim C4 counterexample: the literal `0b0110` (a binary literal with a
leading zero digit) is accepted by `parse_polynomial` with width 4 and taps
`[2, 1]`, whose highest index is 2, not `width - 1 = 3`. -/
theorem C4_counterexample_leading_zero :
    parse_polynomial "0b0110" = .ok (4, [2, 1])
    ∧ (4 - 1) ∉ ([2, 1] : List ℕ)
    ∧ ([2, 1] : List ℕ).foldr max 0 = 2 := by
  refine ⟨by decide, by decide, by decide⟩

/-- Claim C4 (amended): for every literal accepted by `parse_polynomial`
the returned taps are non-empty, distinct and within `[0, width)`; and
whenever the literal is hexadecimal, or is a binary literal whose digit
string has no leading zero, the highest tap index equals `width - 1`.
(A binary literal with leading zeros, such as `0b0110`, is accepted but its
width is the digit-string length, so the highest set bit is below
`width - 1`.) -/
theorem C4_parse_taps_and_highest (gen_poly : String) (lfsr_len : ℕ)
    (one_indices : List ℕ)
    (hok : parse_polynomial gen_poly = .ok (lfsr_len, one_indices)) :
    ValidPoly lfsr_len one_indices
    ∧ ((startsWith0x gen_poly = true ∨ (gen_poly.toList.drop 2).getD 0 ' ' = '1') →
        lfsr_len - 1 ∈ one_indices ∧ ∀ t ∈ one_indices, t ≤ lfsr_len - 1) := by
  rw [parse_polynomial] at hok
  split at hok
  · rename_i hb
    split at hok
    · cases hok
    · rename_i v hvv
      split at hok
      · cases hok
      · rename_i hz
        simp only [Except.ok.injEq, Prod.mk.injEq] at hok
        obtain ⟨hw, hτ⟩ := hok
        subst hw
        subst hτ
        have hvalid := one_indices_of_valid _ v hvv hz
        refine ⟨hvalid, ?_⟩
        intro hcond
        have hx : startsWith0x gen_poly = false := startsWith0b_not_0x gen_poly hb
        have hhead : (gen_poly.toList.drop 2).getD 0 ' ' = '1' := by
          rcases hcond with hcx | hcd
          · rw [hx] at hcx; cases hcx
          · exact hcd
        have hne : gen_poly.toList.drop 2 ≠ [] := binVal_ne_nil _ v hvv
        obtain ⟨c, rest, hcr⟩ := List.exists_cons_of_ne_nil hne
        have hc1 : c = '1' := by
          rw [hcr] at hhead
          simpa using hhead
        subst hc1
        refine ⟨one_indices_of_head _ rest hcr, ?_⟩
        intro t ht
        have hlt := hvalid.2.2.1 t ht
        omega
  · split at hok
    · split at hok
      · cases hok
      · rename_i v hvv
        split at hok
        · cases hok
        · rename_i v2 hv2
          split at hok
          · cases hok
          · rename_i hz
            simp only [Except.ok.injEq, Prod.mk.injEq] at hok
            obtain ⟨hw, hτ⟩ := hok
            subst hw
            subst hτ
            have hv0 : v ≠ 0 := by
              intro h0
              subst h0
              rw [pyBinDigits, if_pos rfl] at hv2
              have hb0 : binVal ['0'] = some 0 := by decide
              rw [hb0, Option.some.injEq] at hv2
              exact hz hv2.symm
            have hpy : pyBinDigits v = natToBinDigits v := by
              rw [pyBinDigits, if_neg hv0]
            have hvalid := one_indices_of_valid _ v2 hv2 hz
            refine ⟨hvalid, ?_⟩
            intro _
            obtain ⟨rest, hr⟩ := natToBinDigits_head v hv0
            refine ⟨one_indices_of_head _ rest (by rw [hpy, hr]), ?_⟩
            intro t ht
            have hlt := hvalid.2.2.1 t ht
            omega
    · cases hok

/-- Claim C4 witness: a hex literal and a leading-one binary literal where
the amended statement's conclusions hold. -/
theorem C4_parse_taps_and_highest_witness :
    (ValidPoly 6 [5, 4, 2, 1]
      ∧ ((startsWith0x "0x36" = true ∨ ("0x36".toList.drop 2).getD 0 ' ' = '1') →
          5 ∈ ([5, 4, 2, 1] : List ℕ) ∧ ∀ t ∈ ([5, 4, 2, 1] : List ℕ), t ≤ 5)) := by
  have h := C4_parse_taps_and_highest "0x36" 6 [5, 4, 2, 1] (by decide)
  exact h

/-- Claim C8: `parse_polynomial` fails with `MalformedPolynomial` exactly
when the literal lacks a recognized base prefix, fails with
`ZeroPolynomial` when the literal's numeric value is zero, succeeds on
every numeric literal with a valid prefix and non-zero value, and any
failure aborts the pipeline before any output text is produced. -/
theorem C8_parse_failure_modes (gen_poly : String) (out_width : ℤ) :
    (startsWith0b gen_poly = false → startsWith0x gen_poly = false →
      parse_polynomial gen_poly = .error .MalformedPolynomial)
    ∧ (literal_value gen_poly = some 0 →
      parse_polynomial gen_poly = .error .ZeroPolynomial)
    ∧ (∀ v, literal_value gen_poly = some v → v ≠ 0 →
      ∃ lfsr_len one_indices, parse_polynomial gen_poly = .ok (lfsr_len, one_indices))
    ∧ (∀ lfsr_len one_indices,
      parse_polynomial gen_poly = .ok (lfsr_len, one_indices) →
      ∃ v, literal_value gen_poly = some v ∧ v ≠ 0)
    ∧ (∀ e, parse_polynomial gen_poly = .error e →
      run_vgen_rand gen_poly out_width = .error e) := by
  refine ⟨?_, ?_, ?_, ?_, ?_⟩
  · intro hb hx
    rw [parse_polynomial, if_neg (by rw [hb]; intro hc; cases hc),
      if_neg (by rw [hx]; intro hc; cases hc)]
  · intro hval
    rw [literal_value] at hval
    rw [parse_polynomial]
    by_cases hb : startsWith0b gen_poly = true
    · rw [if_pos hb] at hval ⊢
      rw [hval]
      rfl
    · rw [if_neg hb] at hval ⊢
      by_cases hx : startsWith0x gen_poly = true
      · rw [if_pos hx] at hval ⊢
        rw [hval]
        rfl
      · rw [if_neg hx] at hval
        cases hval
  · intro v hval hv0
    rw [literal_value] at hval
    rw [parse_polynomial]
    by_cases hb : startsWith0b gen_poly = true
    · rw [if_pos hb] at hval ⊢
      rw [hval]
      exact ⟨(gen_poly.toList.drop 2).length,
        one_indices_of (gen_poly.toList.drop 2).length (gen_poly.toList.drop 2),
        by simp [hv0]⟩
    · rw [if_neg hb] at hval ⊢
      by_cases hx : startsWith0x gen_poly = true
      · rw [if_pos hx] at hval ⊢
        rw [hval]
        have hpy : pyBinDigits v = natToBinDigits v := by rw [pyBinDigits, if_neg hv0]
        have hbv : binVal (pyBinDigits v) = some v := by rw [hpy, binVal_natToBin v hv0]
        exact ⟨(pyBinDigits v).length,
          one_indices_of (pyBinDigits v).length (pyBinDigits v),
          by simp [hbv, hv0]⟩
      · rw [if_neg hx] at hval
        cases hval
  · intro lfsr_len one_indices hok
    rw [parse_polynomial] at hok
    rw [literal_value]
    split at hok
    · rename_i hb
      rw [if_pos hb]
      split at hok
      · cases hok
      · rename_i v hvv
        split at hok
        · cases hok
        · rename_i hz
          exact ⟨v, hvv, hz⟩
    · rename_i hb
      rw [if_neg hb]
      split at hok
      · rename_i hx
        rw [if_pos hx]
        split at hok
        · cases hok
        · rename_i v hvv
          split at hok
          · cases hok
          · rename_i v2 hv2
            split at hok
            · cases hok
            · rename_i hz
              refine ⟨v, hvv, ?_⟩
              intro h0
              subst h0
              rw [pyBinDigits, if_pos rfl] at hv2
              have hb0 : binVal ['0'] = some 0 := by decide
              rw [hb0, Option.some.injEq] at hv2
              exact hz hv2.symm
      · cases hok
  · intro e herr
    rw [run_vgen_rand, herr]

/-- Claim C8 witness: the three failure/success modes at concrete
literals. -/
theorem C8_parse_failure_modes_witness :
    parse_polynomial "110110" = .error .MalformedPolynomial
    ∧ parse_polynomial "0b0" = .error .ZeroPolynomial
    ∧ (∃ lfsr_len one_indices,
        parse_polynomial "0b110110" = .ok (lfsr_len, one_indices))
    ∧ run_vgen_rand "110110" 4 = .error .MalformedPolynomial := by
  refine ⟨(C8_parse_failure_modes "110110" 4).1 (by decide) (by decide),
    (C8_parse_failure_modes "0b0" 4).2.1 (by decide),
    (C8_parse_failure_modes "0b110110" 4).2.2.1 54 (by decide) (by decide),
    (C8_parse_failure_modes "110110" 4).2.2.2.2 ParseErr.MalformedPolynomial
      ((C8_parse_failure_modes "110110" 4).1 (by decide) (by decide))⟩

/-- Claim C6: the parallel-mode emitted text contains one assignment per
entry of the OutputSchedule, and the statement for output bit `k` is the
XOR chain over exactly the seed-bit indices of `OutputSchedule[k]`, listed
in ascending order.  (Python's set-iteration order is unspecified by the
language; the embedding enumerates each term in ascending order, the
canonical order the spec's DESIGN NOTES require.) -/
theorem C6_parallel_assign_chains (lfsr_len : ℕ) (one_indices : List ℕ)
    (h : ValidPoly lfsr_len one_indices) (rand_wd : ℤ) (k : ℕ)
    (hk : k < (gen_random lfsr_len one_indices rand_wd).length) :
    (parallel_assigns (gen_random lfsr_len one_indices rand_wd)).length
      = (gen_random lfsr_len one_indices rand_wd).length
    ∧ ∃ chain : List ℕ,
        (parallel_assigns (gen_random lfsr_len one_indices rand_wd)).getD k ""
          = assign_stmt k chain
        ∧ chain.toFinset = (gen_random lfsr_len one_indices rand_wd).getD k ∅
        ∧ chain.Sorted (· < ·) := by
  constructor
  · rw [parallel_assigns, List.length_map, List.length_range]
  · refine ⟨sortAsc ((gen_random lfsr_len one_indices rand_wd).getD k ∅), ?_, ?_, ?_⟩
    · rw [parallel_assigns, List.getD_eq_getElem?_getD, List.getElem?_map,
        List.getElem?_range hk]
      rfl
    · rw [sortAsc]
      exact Finset.sort_toFinset _ _
    · rw [sortAsc]
      exact Finset.sort_sorted_lt _

/-- Claim C6 witness at a concrete schedule and position. -/
theorem C6_parallel_assign_chains_witness :
    (parallel_assigns (gen_random 6 [5, 4, 2, 1] 2)).length
      = (gen_random 6 [5, 4, 2, 1] 2).length
    ∧ ∃ chain : List ℕ,
        (parallel_assigns (gen_random 6 [5, 4, 2, 1] 2)).getD 1 ""
          = assign_stmt 1 chain
        ∧ chain.toFinset = (gen_random 6 [5, 4, 2, 1] 2).getD 1 ∅
        ∧ chain.Sorted (· < ·) :=
  C6_parallel_assign_chains 6 [5, 4, 2, 1] (by decide) 2 1 (by decide)

/-- Claim C7 evaluation: for the polynomial `0b110110` the sequential
emitter declares the state register/output signal as `lfsr`, but both the
feedback equation and the shift concatenation index the undeclared
identifier `lsfr` (a misspelling in the source), so the identifier indexed
in those statements is not the declared register signal. -/
theorem C7_sequential_feedback_indexes_misspelled_signal :
    parse_polynomial "0b110110" = .ok (6, [5, 4, 2, 1])
    ∧ lfsr_output_decl 6 = "    output [6-1:0]  lfsr\n"
    ∧ lfsr_fb_assign [5, 4, 2, 1]
        = "    assign fb = lsfr[5] ^ lsfr[4] ^ lsfr[2] ^ lsfr[1];\n\n"
    ∧ lfsr_shift_stmt 6 = "            lfsr <= \x7blsfr[4:0], fb\x7d;\n" := by
  refine ⟨by decide, by decide, by decide, by decide⟩

end Vgen
